import Mathlib

/-!
Verification of the blackjack engine in `main.py` (CLI core): a shallow
embedding of the card model, the hand evaluator `hand_value`, the dealer
policy `dealer_play`, the outcome comparison `compare_outcome`, and the
per-round state machine `play_round`, together with theorems about chip
accounting, softness detection, dealer termination and shoe usage.

Modelling conventions:
* A deck is a `List Card` in deal order: the head of the list is the next
  card dealt (the source stores the shuffled deck in a Python list and
  `Deck.deal` pops from its end, so our list is that list reversed).
  Dealing from an empty deck raises `IndexError` in the source; the model
  signals it with `Option`/`RoundResult.shoeEmpty`.
* The bet and the player's actions come from interactive prompts in the
  source (`prompt_bet`, `prompt_action`); the model takes the bet as a
  parameter and the actions as a list.  `prompt_action` re-prompts when
  `double` is chosen while unaffordable, which the model renders as
  skipping that action.  An exhausted action list (the source would block
  on input) is the distinguished result `RoundResult.outOfActions`.
* Chip counts and bets are Python ints, embedded as `Int`.
-/

namespace Blackjack

/-- Card ranks, `RANKS = "23456789TJQKA"` in the source. -/
inductive Rank where
  | two | three | four | five | six | seven | eight | nine
  | ten | jack | queen | king | ace
deriving DecidableEq

/-- A playing card: a rank and a suit.  The suit (`SUITS = "♠♥♦♣"`) is
decorative only and never inspected by the game logic, so it is embedded
as `Fin 4`. -/
structure Card where
  rank : Rank
  suit : Fin 4
deriving DecidableEq

/-- The 13 ranks in source order. -/
def allRanks : List Rank :=
  [Rank.two, Rank.three, Rank.four, Rank.five, Rank.six, Rank.seven,
   Rank.eight, Rank.nine, Rank.ten, Rank.jack, Rank.queen, Rank.king,
   Rank.ace]

/-- The fresh 52-card deck built by `Deck.__init__` (one card per
rank and suit), before shuffling.  Shuffling permutes it, so any freshly
shuffled deck is a permutation of `standardDeck`. -/
def standardDeck : List Card :=
  allRanks.flatMap fun r => (List.finRange 4).map fun s => ⟨r, s⟩

/-- Per-card contribution to the raw total in `hand_value`: an Ace counts
as 11, `T`/`J`/`Q`/`K` count as 10, other ranks at face value. -/
def cardRaw (c : Card) : Nat :=
  match c.rank with
  | Rank.ace => 11
  | Rank.ten | Rank.jack | Rank.queen | Rank.king => 10
  | Rank.two => 2
  | Rank.three => 3
  | Rank.four => 4
  | Rank.five => 5
  | Rank.six => 6
  | Rank.seven => 7
  | Rank.eight => 8
  | Rank.nine => 9

/-- Per-card contribution in `sum_card_values_as_ace_one`: an Ace counts
as 1, `T`/`J`/`Q`/`K` count as 10, other ranks at face value. -/
def aceOneValue (c : Card) : Nat :=
  match c.rank with
  | Rank.ace => 1
  | Rank.ten | Rank.jack | Rank.queen | Rank.king => 10
  | Rank.two => 2
  | Rank.three => 3
  | Rank.four => 4
  | Rank.five => 5
  | Rank.six => 6
  | Rank.seven => 7
  | Rank.eight => 8
  | Rank.nine => 9

/-- The accumulated raw total of `hand_value`'s first loop (Aces as 11). -/
def rawTotal : List Card → Nat
  | [] => 0
  | c :: cs => cardRaw c + rawTotal cs

/-- The `aces` counter of `hand_value`'s first loop. -/
def countAces : List Card → Nat
  | [] => 0
  | c :: cs => (if c.rank = Rank.ace then 1 else 0) + countAces cs

/-- The function `sum_card_values_as_ace_one(cards)` of the source: the
hand's total with every Ace counted as 1. -/
def sum_card_values_as_ace_one : List Card → Nat
  | [] => 0
  | c :: cs => aceOneValue c + sum_card_values_as_ace_one cs

/-- The test `any(c.rank == 'A' for c in cards)` of the source. -/
def hasAce (cards : List Card) : Bool :=
  cards.any fun c => decide (c.rank = Rank.ace)

/-- The `while total > 21 and aces > 0: total -= 10; aces -= 1` loop of
`hand_value`, recursing on the `aces` counter. -/
def reduceAces (total : Nat) : Nat → Nat
  | 0 => total
  | aces + 1 => if 21 < total then reduceAces (total - 10) aces else total

/-- The function `hand_value(cards)` of the source: best total and the
returned softness flag.  The returned flag transliterates line 74 of the
source (`any(... == 'A') and total + 0 <= 21 and any(... == 'A') and
total - 10 >= 1 and total - 10 < total`), with the arithmetic over `Int`
as in Python.  The dead local assignment to `is_soft` on line 73 is
computed and discarded by the source and has no effect, so it is not
embedded. -/
def hand_value (cards : List Card) : Nat × Bool :=
  let total := reduceAces (rawTotal cards) (countAces cards)
  (total,
    hasAce cards && decide ((total : Int) + 0 ≤ 21) && hasAce cards &&
      decide ((total : Int) - 10 ≥ 1) && decide ((total : Int) - 10 < (total : Int)))

/-- The function `is_blackjack(cards)` of the source: exactly two cards
whose value is 21. -/
def is_blackjack (cards : List Card) : Bool :=
  cards.length == 2 && (hand_value cards).1 == 21

/-- The ad hoc softness detection on line 136 of the source
(`is_soft = any(c.rank == 'A' ...) and (v - min_val) >= 10 and v == 17`),
restricted to its soft-hand part as the claims isolate it: the hand has
an Ace and the evaluated total exceeds the all-Aces-as-one sum by at
least 10.  The remaining `v == 17` conjunct of that line specialises it
to soft seventeen and is kept in `dealer_play` below. -/
def adHocSoft (cards : List Card) : Bool :=
  hasAce cards &&
    decide ((((hand_value cards).1 : Int) - (sum_card_values_as_ace_one cards : Int)) ≥ 10)

/-- The function `dealer_play(deck, dealer_cards)` of the source: hit
while the value is below 17, stand otherwise (the soft-seventeen branch
and the final branch of the source both stop).  Returns the final dealer
hand together with the remaining deck, or `none` when a draw hits an
empty shoe (an `IndexError` in the source). -/
def dealer_play (deck dealer_cards : List Card) : Option (List Card × List Card) :=
  let v := (hand_value dealer_cards).1
  let min_val := sum_card_values_as_ace_one dealer_cards
  let is_soft := hasAce dealer_cards &&
    decide (((v : Int) - (min_val : Int)) ≥ 10) && (v == 17)
  if v < 17 then
    match deck with
    | [] => none
    | c :: rest => dealer_play rest (dealer_cards ++ [c])
  else if v == 17 && is_soft then
    some (dealer_cards, deck)
  else
    some (dealer_cards, deck)

/-- Round outcomes returned by `compare_outcome`. -/
inductive Outcome where
  | player_bust | dealer_bust | player_win | dealer_win | push
deriving DecidableEq

/-- The function `compare_outcome(player_cards, dealer_cards)` of the
source. -/
def compare_outcome (player_cards dealer_cards : List Card) : Outcome :=
  let pv := (hand_value player_cards).1
  let dv := (hand_value dealer_cards).1
  if 21 < pv then Outcome.player_bust
  else if 21 < dv then Outcome.dealer_bust
  else if dv < pv then Outcome.player_win
  else if pv < dv then Outcome.dealer_win
  else Outcome.push

/-- Player decisions returned by `prompt_action`. -/
inductive Action where
  | hit | stand | double
deriving DecidableEq

/-- Result of one modelled round.  `finished` records the chip balance
returned by `play_round`, the source's `doubled` flag, both final hands
and the remaining deck; `outOfActions` marks an exhausted action list
(the source would still be blocked on `prompt_action`); `shoeEmpty`
marks a `Deck.deal` on an empty card list (an `IndexError` in the
source). -/
inductive RoundResult where
  | finished (chips : Int) (doubled : Bool) (player dealer deck : List Card)
  | outOfActions
  | shoeEmpty
deriving DecidableEq

/-- The tail of `play_round` after the player stands or doubles without
busting: run `dealer_play`, then settle the bet by `compare_outcome`
(win the bet, lose the bet, or push with no change). -/
def resolveRound (chips bet : Int) (doubled : Bool)
    (player_cards dealer_cards deck : List Card) : RoundResult :=
  match dealer_play deck dealer_cards with
  | none => RoundResult.shoeEmpty
  | some (d, rest) =>
    match compare_outcome player_cards d with
    | Outcome.player_bust => RoundResult.finished (chips - bet) doubled player_cards d rest
    | Outcome.dealer_bust => RoundResult.finished (chips + bet) doubled player_cards d rest
    | Outcome.player_win => RoundResult.finished (chips + bet) doubled player_cards d rest
    | Outcome.dealer_win => RoundResult.finished (chips - bet) doubled player_cards d rest
    | Outcome.push => RoundResult.finished chips doubled player_cards d rest

/-- The `while True` player-action loop of `play_round` (lines 191-219 of
the source).  `hit` draws one card and ends the round at once on a bust
(`chips -= bet`); `double` — accepted only when `chips - bet >= bet`,
otherwise `prompt_action` re-prompts, modelled by moving to the next
action — deducts the bet immediately, doubles the recorded bet, draws
exactly one card, ends the round with no further chip change on a bust
and otherwise stands; `stand` moves to the dealer. -/
def playerTurn (chips bet : Int) (doubled : Bool)
    (player_cards dealer_cards deck : List Card) : List Action → RoundResult
  | [] => RoundResult.outOfActions
  | Action.hit :: moves =>
    match deck with
    | [] => RoundResult.shoeEmpty
    | c :: dk =>
      let p := player_cards ++ [c]
      if 21 < (hand_value p).1 then
        RoundResult.finished (chips - bet) doubled p dealer_cards dk
      else
        playerTurn chips bet doubled p dealer_cards dk moves
  | Action.double :: moves =>
    if bet ≤ chips - bet then
      match deck with
      | [] => RoundResult.shoeEmpty
      | c :: dk =>
        let p := player_cards ++ [c]
        if 21 < (hand_value p).1 then
          RoundResult.finished (chips - bet) true p dealer_cards dk
        else
          resolveRound (chips - bet) (2 * bet) true p dealer_cards dk
    else
      playerTurn chips bet doubled player_cards dealer_cards deck moves
  | Action.stand :: _ =>
    resolveRound chips bet doubled player_cards dealer_cards deck

/-- The function `play_round(chips)` of the source, for a round that was
given a bet (the quit branch returns before any game logic).  Two cards
are dealt to the player and two to the dealer; naturals short-circuit
(player natural pays `bet + int(1.5 * bet)` — the source computes the
payout through a Python float, which is exact for the 3:2 payout
whenever `1.5 * bet` is exactly representable as a double, and is
embedded here as the exact `3 * bet / 2`; dealer natural loses the bet;
both push); otherwise the player-action loop runs. -/
def playRound (chips bet : Int) (deck : List Card) (moves : List Action) : RoundResult :=
  match deck with
  | p1 :: p2 :: d1 :: d2 :: rest =>
    let player_cards := [p1, p2]
    let dealer_cards := [d1, d2]
    let player_natural := is_blackjack player_cards
    let dealer_natural := is_blackjack dealer_cards
    if player_natural || dealer_natural then
      if player_natural && !dealer_natural then
        RoundResult.finished (chips + bet + 3 * bet / 2) false player_cards dealer_cards rest
      else if dealer_natural && !player_natural then
        RoundResult.finished (chips - bet) false player_cards dealer_cards rest
      else
        RoundResult.finished chips false player_cards dealer_cards rest
    else
      playerTurn chips bet false player_cards dealer_cards rest moves
  | _ => RoundResult.shoeEmpty

/-! ### Arithmetic facts about the hand evaluator -/

theorem aceOneValue_pos (c : Card) : 1 ≤ aceOneValue c := by
  rcases c with ⟨r, s⟩
  cases r <;> simp [aceOneValue]

theorem aceOneValue_le_ten (c : Card) : aceOneValue c ≤ 10 := by
  rcases c with ⟨r, s⟩
  cases r <;> simp [aceOneValue]

theorem cardRaw_eq (c : Card) :
    cardRaw c = aceOneValue c + 10 * (if c.rank = Rank.ace then 1 else 0) := by
  rcases c with ⟨r, s⟩
  cases r <;> simp [cardRaw, aceOneValue]

theorem sumAceOne_append (xs ys : List Card) :
    sum_card_values_as_ace_one (xs ++ ys) =
      sum_card_values_as_ace_one xs + sum_card_values_as_ace_one ys := by
  induction xs with
  | nil => simp [sum_card_values_as_ace_one]
  | cons c cs ih =>
    simp only [List.cons_append, sum_card_values_as_ace_one, List.append_eq, ih]
    omega

theorem sumAceOne_pos_of_hasAce {cards : List Card} (h : hasAce cards = true) :
    1 ≤ sum_card_values_as_ace_one cards := by
  cases cards with
  | nil => simp [hasAce] at h
  | cons c cs =>
    have := aceOneValue_pos c
    simp only [sum_card_values_as_ace_one]
    omega

theorem rawTotal_eq (cards : List Card) :
    rawTotal cards = sum_card_values_as_ace_one cards + 10 * countAces cards := by
  induction cards with
  | nil => rfl
  | cons c cs ih =>
    simp only [rawTotal, sum_card_values_as_ace_one, countAces, ih, cardRaw_eq c]
    ring

theorem reduceAces_le : ∀ aces total, reduceAces total aces ≤ total := by
  intro aces
  induction aces with
  | zero => intro total; exact le_refl total
  | succ a ih =>
    intro total
    simp only [reduceAces]
    split
    · exact le_trans (ih (total - 10)) (Nat.sub_le total 10)
    · exact le_refl total

theorem reduceAces_sub_le : ∀ aces total, total - 10 * aces ≤ reduceAces total aces := by
  intro aces
  induction aces with
  | zero => intro total; simp [reduceAces]
  | succ a ih =>
    intro total
    simp only [reduceAces]
    split
    · have := ih (total - 10)
      omega
    · omega

theorem reduceAces_gt : ∀ aces total, 21 < reduceAces total aces →
    reduceAces total aces = total - 10 * aces := by
  intro aces
  induction aces with
  | zero => intro total h; simp [reduceAces]
  | succ a ih =>
    intro total h
    by_cases h21 : 21 < total
    · rw [reduceAces, if_pos h21] at h ⊢
      rw [ih _ h]
      omega
    · rw [reduceAces, if_neg h21] at h ⊢
      omega

theorem hand_value_fst (cards : List Card) :
    (hand_value cards).1 = reduceAces (rawTotal cards) (countAces cards) := rfl

theorem sumAceOne_le_value (cards : List Card) :
    sum_card_values_as_ace_one cards ≤ (hand_value cards).1 := by
  rw [hand_value_fst, rawTotal_eq]
  have h := reduceAces_sub_le (countAces cards)
    (sum_card_values_as_ace_one cards + 10 * countAces cards)
  omega

theorem value_gt21_eq_sumAceOne {cards : List Card}
    (h : 21 < (hand_value cards).1) :
    (hand_value cards).1 = sum_card_values_as_ace_one cards := by
  rw [hand_value_fst, rawTotal_eq] at h ⊢
  have := reduceAces_gt (countAces cards)
    (sum_card_values_as_ace_one cards + 10 * countAces cards) h
  omega

theorem two_card_value_le_21 (a b : Card) : (hand_value [a, b]).1 ≤ 21 := by
  by_contra h
  push_neg at h
  have h2 := @value_gt21_eq_sumAceOne [a, b] h
  have ha := aceOneValue_le_ten a
  have hb := aceOneValue_le_ten b
  simp only [sum_card_values_as_ace_one] at h2
  omega

theorem is_blackjack_value {cards : List Card} (h : is_blackjack cards = true) :
    cards.length = 2 ∧ (hand_value cards).1 = 21 := by
  simpa [is_blackjack] using h

theorem compare_outcome_of_bust {p d : List Card} (h : 21 < (hand_value p).1) :
    compare_outcome p d = Outcome.player_bust := by
  simp [compare_outcome, h]

theorem compare_outcome_push_of_eq {p d : List Card}
    (hle : (hand_value p).1 ≤ 21) (heq : (hand_value p).1 = (hand_value d).1) :
    compare_outcome p d = Outcome.push := by
  simp only [compare_outcome]
  rw [if_neg (by omega), if_neg (by omega), if_neg (by omega), if_neg (by omega)]

/-! ### Behaviour of the dealer policy -/

theorem sumAceOne_snoc (hand : List Card) (c : Card) :
    sum_card_values_as_ace_one (hand ++ [c]) =
      sum_card_values_as_ace_one hand + aceOneValue c := by
  rw [sumAceOne_append]
  simp [sum_card_values_as_ace_one]

theorem dealer_play_stand {deck dealer_cards : List Card}
    (h : 17 ≤ (hand_value dealer_cards).1) :
    dealer_play deck dealer_cards = some (dealer_cards, deck) := by
  rw [dealer_play.eq_def]
  rw [if_neg (by omega)]
  split <;> rfl

theorem dealer_play_draw {deck dealer_cards : List Card} {c : Card}
    (h : (hand_value dealer_cards).1 < 17) :
    dealer_play (c :: deck) dealer_cards = dealer_play deck (dealer_cards ++ [c]) := by
  rw [dealer_play.eq_def]
  rw [if_pos h]

theorem dealer_play_nil {dealer_cards : List Card}
    (h : (hand_value dealer_cards).1 < 17) :
    dealer_play [] dealer_cards = none := by
  rw [dealer_play.eq_def]
  rw [if_pos h]

theorem dealer_play_isSome : ∀ deck hand : List Card,
    17 ≤ sum_card_values_as_ace_one hand + deck.length →
    (dealer_play deck hand).isSome = true := by
  intro deck
  induction deck with
  | nil =>
    intro hand h
    have hv := sumAceOne_le_value hand
    rw [dealer_play_stand (by simp at h; omega)]
    rfl
  | cons c dk ih =>
    intro hand h
    by_cases hv : (hand_value hand).1 < 17
    · rw [dealer_play_draw hv]
      apply ih
      have hc := aceOneValue_pos c
      rw [sumAceOne_snoc]
      simp only [List.length_cons] at h
      omega
    · rw [dealer_play_stand (le_of_not_lt hv)]
      rfl

theorem dealer_play_deck_bound : ∀ deck hand d rest : List Card,
    dealer_play deck hand = some (d, rest) →
    deck.length ≤ rest.length + (17 - sum_card_values_as_ace_one hand) := by
  intro deck
  induction deck with
  | nil => intro hand d rest _; simp
  | cons c dk ih =>
    intro hand d rest h
    by_cases hv : (hand_value hand).1 < 17
    · rw [dealer_play_draw hv] at h
      have hb := ih (hand ++ [c]) d rest h
      have hm := sumAceOne_le_value hand
      have hc := aceOneValue_pos c
      rw [sumAceOne_snoc] at hb
      simp only [List.length_cons]
      omega
    · rw [dealer_play_stand (le_of_not_lt hv)] at h
      simp only [Option.some.injEq, Prod.mk.injEq] at h
      obtain ⟨hd, hr⟩ := h
      subst hr
      omega

theorem dealer_play_hand_len : ∀ deck hand d rest : List Card,
    dealer_play deck hand = some (d, rest) → hand.length ≤ d.length := by
  intro deck
  induction deck with
  | nil =>
    intro hand d rest h
    by_cases hv : (hand_value hand).1 < 17
    · rw [dealer_play_nil hv] at h; cases h
    · rw [dealer_play_stand (le_of_not_lt hv)] at h
      simp only [Option.some.injEq, Prod.mk.injEq] at h
      obtain ⟨hd, hr⟩ := h
      subst hd
      exact le_refl _
  | cons c dk ih =>
    intro hand d rest h
    by_cases hv : (hand_value hand).1 < 17
    · rw [dealer_play_draw hv] at h
      have := ih (hand ++ [c]) d rest h
      simp only [List.length_append, List.length_cons] at this
      omega
    · rw [dealer_play_stand (le_of_not_lt hv)] at h
      simp only [Option.some.injEq, Prod.mk.injEq] at h
      obtain ⟨hd, hr⟩ := h
      subst hd
      exact le_refl _

theorem dealer_play_final : ∀ deck hand d rest : List Card,
    dealer_play deck hand = some (d, rest) →
    17 ≤ (hand_value d).1 ∧ (17 ≤ (hand_value hand).1 → d = hand ∧ rest = deck) := by
  intro deck
  induction deck with
  | nil =>
    intro hand d rest h
    by_cases hv : (hand_value hand).1 < 17
    · rw [dealer_play_nil hv] at h; cases h
    · rw [dealer_play_stand (le_of_not_lt hv)] at h
      simp only [Option.some.injEq, Prod.mk.injEq] at h
      obtain ⟨hd, hr⟩ := h
      subst hd; subst hr
      exact ⟨le_of_not_lt hv, fun _ => ⟨rfl, rfl⟩⟩
  | cons c dk ih =>
    intro hand d rest h
    by_cases hv : (hand_value hand).1 < 17
    · rw [dealer_play_draw hv] at h
      refine ⟨(ih (hand ++ [c]) d rest h).1, fun h17 => absurd h17 (by omega)⟩
    · rw [dealer_play_stand (le_of_not_lt hv)] at h
      simp only [Option.some.injEq, Prod.mk.injEq] at h
      obtain ⟨hd, hr⟩ := h
      subst hd; subst hr
      exact ⟨le_of_not_lt hv, fun _ => ⟨rfl, rfl⟩⟩

/-! ### Behaviour of the round state machine -/

theorem resolveRound_ne_shoeEmpty {chips bet : Int} {dbl : Bool}
    {pl dl dk : List Card}
    (h : 17 ≤ sum_card_values_as_ace_one dl + dk.length) :
    resolveRound chips bet dbl pl dl dk ≠ RoundResult.shoeEmpty := by
  have hs := dealer_play_isSome dk dl h
  unfold resolveRound
  rcases hdp : dealer_play dk dl with _ | ⟨d, rest⟩
  · rw [hdp] at hs
    simp [Option.isSome] at hs
  · cases hco : compare_outcome pl d <;> simp [hco]

theorem resolveRound_finished {chips bet : Int} {dbl : Bool}
    {pl dl dk : List Card} {c' : Int} {dbl' : Bool} {p d rest : List Card}
    (h : resolveRound chips bet dbl pl dl dk = RoundResult.finished c' dbl' p d rest) :
    dbl' = dbl ∧ p = pl ∧ dealer_play dk dl = some (d, rest) ∧
      (compare_outcome pl d = Outcome.push → c' = chips) ∧
      (compare_outcome pl d = Outcome.player_win → c' = chips + bet) ∧
      (compare_outcome pl d = Outcome.dealer_win → c' = chips - bet) ∧
      (compare_outcome pl d = Outcome.player_bust → c' = chips - bet) ∧
      (compare_outcome pl d = Outcome.dealer_bust → c' = chips + bet) := by
  unfold resolveRound at h
  rcases hdp : dealer_play dk dl with _ | ⟨d0, rest0⟩ <;> simp only [hdp] at h
  · cases h
  · cases hco : compare_outcome pl d0 <;> simp only [hco] at h <;>
      simp only [RoundResult.finished.injEq] at h <;>
      obtain ⟨h1, h2, h3, h4, h5⟩ := h <;> subst h1 <;> subst h2 <;> subst h3 <;>
      subst h4 <;> subst h5 <;>
      refine ⟨rfl, rfl, rfl, ?_, ?_, ?_, ?_, ?_⟩ <;> intro hx <;> rw [hco] at hx <;>
      (first | rfl | cases hx)

theorem playerTurn_safe : ∀ (moves : List Action) (chips bet : Int) (dbl : Bool)
    (pl dl deck : List Card),
    (hand_value pl).1 ≤ 21 →
    2 ≤ sum_card_values_as_ace_one dl →
    17 + (22 - sum_card_values_as_ace_one pl) ≤ deck.length →
    playerTurn chips bet dbl pl dl deck moves ≠ RoundResult.shoeEmpty ∧
      ∀ (c' : Int) (dbl' : Bool) (p d rest : List Card),
        playerTurn chips bet dbl pl dl deck moves = RoundResult.finished c' dbl' p d rest →
        1 ≤ rest.length := by
  intro moves
  induction moves with
  | nil =>
    intro chips bet dbl pl dl deck _ _ _
    constructor
    · simp [playerTurn]
    · intro c' dbl' p d rest h
      simp [playerTurn] at h
  | cons a ms ih =>
    intro chips bet dbl pl dl deck h1 h2 h3
    have hple := sumAceOne_le_value pl
    cases a
    case hit =>
      cases deck with
      | nil =>
        simp only [List.length_nil] at h3
        omega
      | cons c dk =>
        simp only [playerTurn]
        simp only [List.length_cons] at h3
        by_cases hb : 21 < (hand_value (pl ++ [c])).1
        · rw [if_pos hb]
          constructor
          · simp
          · intro c' dbl' p d rest h
            simp only [RoundResult.finished.injEq] at h
            obtain ⟨_, _, _, _, hr⟩ := h
            subst hr
            omega
        · rw [if_neg hb]
          apply ih
          · omega
          · exact h2
          · have hc := aceOneValue_pos c
            rw [sumAceOne_snoc]
            omega
    case stand =>
      simp only [playerTurn]
      have hdl : 17 ≤ sum_card_values_as_ace_one dl + deck.length := by omega
      constructor
      · exact resolveRound_ne_shoeEmpty hdl
      · intro c' dbl' p d rest h
        obtain ⟨_, _, hdp, _⟩ := resolveRound_finished h
        have hbound := dealer_play_deck_bound deck dl d rest hdp
        omega
    case double =>
      by_cases hcd : bet ≤ chips - bet
      · cases deck with
        | nil =>
          simp only [List.length_nil] at h3
          omega
        | cons c dk =>
          simp only [playerTurn]
          rw [if_pos hcd]
          simp only [List.length_cons] at h3
          by_cases hb : 21 < (hand_value (pl ++ [c])).1
          · rw [if_pos hb]
            constructor
            · simp
            · intro c' dbl' p d rest h
              simp only [RoundResult.finished.injEq] at h
              obtain ⟨_, _, _, _, hr⟩ := h
              subst hr
              omega
          · rw [if_neg hb]
            have hdl : 17 ≤ sum_card_values_as_ace_one dl + dk.length := by omega
            constructor
            · exact resolveRound_ne_shoeEmpty hdl
            · intro c' dbl' p d rest h
              obtain ⟨_, _, hdp, _⟩ := resolveRound_finished h
              have hbound := dealer_play_deck_bound dk dl d rest hdp
              omega
      · simp only [playerTurn]
        rw [if_neg hcd]
        exact ih chips bet dbl pl dl deck h1 h2 h3

theorem playerTurn_account : ∀ (moves : List Action) (chips bet : Int)
    (pl dl deck : List Card) (c' : Int) (dbl : Bool) (p d rest : List Card),
    playerTurn chips bet false pl dl deck moves = RoundResult.finished c' dbl p d rest →
    (dbl = false → compare_outcome p d = Outcome.push → c' = chips) ∧
    (dbl = true →
      (compare_outcome p d = Outcome.push → c' = chips - bet) ∧
      (compare_outcome p d = Outcome.dealer_win → c' = chips - 3 * bet) ∧
      (compare_outcome p d = Outcome.player_win → c' = chips + bet)) := by
  intro moves
  induction moves with
  | nil =>
    intro chips bet pl dl deck c' dbl p d rest h
    simp [playerTurn] at h
  | cons a ms ih =>
    intro chips bet pl dl deck c' dbl p d rest h
    cases a
    case hit =>
      cases deck with
      | nil => simp [playerTurn] at h
      | cons c dk =>
        simp only [playerTurn] at h
        by_cases hb : 21 < (hand_value (pl ++ [c])).1
        · rw [if_pos hb] at h
          simp only [RoundResult.finished.injEq] at h
          obtain ⟨h1, h2, h3, h4, _⟩ := h
          subst h1; subst h2; subst h3; subst h4
          constructor
          · intro _ hpush
            rw [compare_outcome_of_bust hb] at hpush
            cases hpush
          · intro hx
            cases hx
        · rw [if_neg hb] at h
          exact ih chips bet (pl ++ [c]) dl dk c' dbl p d rest h
    case stand =>
      simp only [playerTurn] at h
      obtain ⟨hdbl, hp, _, hpush, hpw, hdw, _, _⟩ := resolveRound_finished h
      subst hdbl
      subst hp
      exact ⟨fun _ => hpush, fun hx => by cases hx⟩
    case double =>
      by_cases hcd : bet ≤ chips - bet
      · cases deck with
        | nil =>
          simp only [playerTurn] at h
          rw [if_pos hcd] at h
          cases h
        | cons c dk =>
          simp only [playerTurn] at h
          rw [if_pos hcd] at h
          by_cases hb : 21 < (hand_value (pl ++ [c])).1
          · rw [if_pos hb] at h
            simp only [RoundResult.finished.injEq] at h
            obtain ⟨h1, h2, h3, h4, _⟩ := h
            subst h1; subst h2; subst h3; subst h4
            constructor
            · intro hx
              cases hx
            · intro _
              refine ⟨?_, ?_, ?_⟩ <;> intro hx <;>
                rw [compare_outcome_of_bust hb] at hx <;> cases hx
          · rw [if_neg hb] at h
            obtain ⟨hdbl, hp, _, hpush, hpw, hdw, _, _⟩ := resolveRound_finished h
            subst hdbl
            subst hp
            constructor
            · intro hx
              cases hx
            · intro _
              refine ⟨?_, ?_, ?_⟩
              · intro hx
                have := hpush hx
                omega
              · intro hx
                have := hdw hx
                omega
              · intro hx
                have := hpw hx
                omega
      · simp only [playerTurn] at h
        rw [if_neg hcd] at h
        exact ih chips bet pl dl deck c' dbl p d rest h

/-! ### Claim theorems: softness detection and dealer policy -/

theorem hand_value_snd_eq (cards : List Card) :
    (hand_value cards).2 =
      (hasAce cards && decide (((hand_value cards).1 : Int) + 0 ≤ 21) && hasAce cards &&
        decide (((hand_value cards).1 : Int) - 10 ≥ 1) &&
        decide (((hand_value cards).1 : Int) - 10 < ((hand_value cards).1 : Int))) := rfl

/-- C6 (amended): the ad hoc soft detection inside `dealer_play` (hand
has an Ace and evaluated total minus the all-Aces-as-one sum is at least
10) implies the softness flag returned by `hand_value`.  The converse
fails — see the counterexample on `[A, 6, 6]` — so the two detections
are not equivalent. -/
theorem adHocSoft_implies_hand_value_soft (cards : List Card)
    (h : adHocSoft cards = true) : (hand_value cards).2 = true := by
  simp only [adHocSoft, Bool.and_eq_true, decide_eq_true_eq] at h
  obtain ⟨hace, hdiff⟩ := h
  have hmin := sumAceOne_le_value cards
  have hpos := sumAceOne_pos_of_hasAce hace
  have hle : (hand_value cards).1 ≤ 21 := by
    by_contra hgt
    push_neg at hgt
    have := value_gt21_eq_sumAceOne hgt
    omega
  have h11 : 11 ≤ (hand_value cards).1 := by omega
  rw [hand_value_snd_eq]
  simp only [Bool.and_eq_true, decide_eq_true_eq]
  refine ⟨⟨⟨⟨hace, by omega⟩, hace⟩, by omega⟩, by omega⟩

/-- C7: the dealer policy stops exactly at 17.  Whenever `dealer_play`
returns a final hand, that hand's value is at least 17; if the input
hand was already worth 17 or more — including a soft seventeen such as
`[A, 6]` — the hand and the shoe are returned unchanged; and if the
input hand was worth less than 17 (for example a hard 16) at least one
card was drawn. -/
theorem dealer_play_policy (deck hand d rest : List Card)
    (h : dealer_play deck hand = some (d, rest)) :
    17 ≤ (hand_value d).1 ∧
      ((hand_value hand).1 < 17 → hand.length < d.length) ∧
      (17 ≤ (hand_value hand).1 → d = hand ∧ rest = deck) := by
  refine ⟨(dealer_play_final deck hand d rest h).1, ?_,
    (dealer_play_final deck hand d rest h).2⟩
  intro hlt
  cases deck with
  | nil =>
    rw [dealer_play_nil hlt] at h
    cases h
  | cons c dk =>
    rw [dealer_play_draw hlt] at h
    have := dealer_play_hand_len dk (hand ++ [c]) d rest h
    simp only [List.length_append, List.length_cons, List.length_nil] at this
    omega

/-- C10 (amended): `dealer_play` terminates on every shoe holding at
least `17 - sum_card_values_as_ace_one hand` cards.  The underlying
measure is the all-Aces-as-one sum, which strictly grows with every
drawn card (each card has positive minimum value) and is bounded
through the evaluated total by the `>= 17` stopping check; the
evaluated total itself need not strictly increase — see the
counterexample drawing a king on `[A, 5]`. -/
theorem dealer_play_terminates (deck hand : List Card) (c : Card)
    (h : 17 ≤ sum_card_values_as_ace_one hand + deck.length) :
    sum_card_values_as_ace_one hand < sum_card_values_as_ace_one (hand ++ [c]) ∧
      (dealer_play deck hand).isSome = true := by
  constructor
  · rw [sumAceOne_snoc]
    have := aceOneValue_pos c
    omega
  · exact dealer_play_isSome deck hand h

/-! ### Claim theorems: round accounting and shoe usage -/

/-- C5 (amended): a round that reaches final resolution with equal
final totals, neither over 21, leaves the chip balance unchanged in
every round in which the player did not double.  (A doubled push
instead ends `bet` below the round-start balance — see the
counterexample — because the amount deducted at double time is never
returned.) -/
theorem playRound_push_preserves_chips_without_double
    (chips bet : Int) (deck : List Card) (moves : List Action)
    (c' : Int) (p d rest : List Card)
    (h : playRound chips bet deck moves = RoundResult.finished c' false p d rest)
    (heq : (hand_value p).1 = (hand_value d).1)
    (hle : (hand_value p).1 ≤ 21) :
    c' = chips := by
  rcases deck with _ | ⟨p1, _ | ⟨p2, _ | ⟨d1, _ | ⟨d2, dk⟩⟩⟩⟩
  · simp [playRound] at h
  · simp [playRound] at h
  · simp [playRound] at h
  · simp [playRound] at h
  simp only [playRound] at h
  by_cases hpn : is_blackjack [p1, p2] = true <;>
    by_cases hdn : is_blackjack [d1, d2] = true
  · simp only [hpn, hdn, Bool.or_self, if_true, Bool.not_true, Bool.and_false,
      Bool.false_eq_true, if_false, RoundResult.finished.injEq] at h
    exact h.1.symm
  · rw [Bool.not_eq_true] at hdn
    simp only [hpn, hdn, Bool.true_or, if_true, Bool.not_false, Bool.and_true,
      if_true, RoundResult.finished.injEq] at h
    obtain ⟨_, _, hp, hd, _⟩ := h
    subst hp
    subst hd
    have h21 := (is_blackjack_value hpn).2
    have hd21 : (hand_value [d1, d2]).1 ≠ 21 := by
      intro hx
      rw [is_blackjack, hx] at hdn
      simp at hdn
    omega
  · rw [Bool.not_eq_true] at hpn
    simp only [hpn, hdn, Bool.or_true, if_true, Bool.false_and, Bool.not_true,
      Bool.and_false, Bool.false_eq_true, if_false, Bool.not_false, Bool.and_true,
      Bool.true_and, RoundResult.finished.injEq] at h
    obtain ⟨_, _, hp, hd, _⟩ := h
    subst hp
    subst hd
    have h21 := (is_blackjack_value hdn).2
    have hp21 : (hand_value [p1, p2]).1 ≠ 21 := by
      intro hx
      rw [is_blackjack, hx] at hpn
      simp at hpn
    omega
  · rw [Bool.not_eq_true] at hpn hdn
    simp only [hpn, hdn, Bool.or_self, Bool.false_eq_true, if_false] at h
    exact (playerTurn_account moves chips bet [p1, p2] [d1, d2] dk c' false p d rest h).1
      rfl (compare_outcome_push_of_eq hle heq)

/-- C4: in a round in which the player doubled (original bet `b`), the
final resolution settles the doubled bet `2*b` on top of the `b`
already deducted at double time: relative to the round-start balance a
dealer win costs `3*b`, a player win gains only `b`, and a push costs
`b`.  (When the drawn double card busts the hand the comparison yields
`player_bust`, so the three implications below cover exactly the
no-bust resolutions the claim describes.) -/
theorem playRound_double_resolution_deltas
    (chips bet : Int) (deck : List Card) (moves : List Action)
    (c' : Int) (p d rest : List Card)
    (h : playRound chips bet deck moves = RoundResult.finished c' true p d rest) :
    (compare_outcome p d = Outcome.dealer_win → c' = chips - 3 * bet) ∧
    (compare_outcome p d = Outcome.player_win → c' = chips + bet) ∧
    (compare_outcome p d = Outcome.push → c' = chips - bet) := by
  rcases deck with _ | ⟨p1, _ | ⟨p2, _ | ⟨d1, _ | ⟨d2, dk⟩⟩⟩⟩
  · simp [playRound] at h
  · simp [playRound] at h
  · simp [playRound] at h
  · simp [playRound] at h
  simp only [playRound] at h
  by_cases hpn : is_blackjack [p1, p2] = true <;>
    by_cases hdn : is_blackjack [d1, d2] = true
  · simp [hpn, hdn] at h
  · rw [Bool.not_eq_true] at hdn
    simp [hpn, hdn] at h
  · rw [Bool.not_eq_true] at hpn
    simp [hpn, hdn] at h
  · rw [Bool.not_eq_true] at hpn hdn
    simp only [hpn, hdn, Bool.or_self, Bool.false_eq_true, if_false] at h
    have hacc := (playerTurn_account moves chips bet [p1, p2] [d1, d2] dk c' true p d rest h).2 rfl
    exact ⟨hacc.2.1, hacc.2.2, hacc.1⟩

/-- C9: a single round played from any permutation of the fresh 52-card
deck never exhausts the shoe: the empty-`deal` branch is unreachable
(`shoeEmpty` is never returned) and any finished round leaves at least
one card in the shoe, i.e. strictly fewer than 52 cards are dealt. -/
theorem playRound_deals_fewer_than_52
    (chips bet : Int) (deck : List Card) (moves : List Action)
    (c' : Int) (dbl : Bool) (p d rest : List Card)
    (hperm : deck.Perm standardDeck) :
    playRound chips bet deck moves ≠ RoundResult.shoeEmpty ∧
      (playRound chips bet deck moves = RoundResult.finished c' dbl p d rest →
        1 ≤ rest.length) := by
  have hlen : deck.length = 52 := by
    have h := hperm.length_eq
    simpa using h
  rcases deck with _ | ⟨p1, _ | ⟨p2, _ | ⟨d1, _ | ⟨d2, dk⟩⟩⟩⟩ <;>
    simp only [List.length_cons, List.length_nil] at hlen <;>
    first
    | omega
    | skip
  have hdk : dk.length = 48 := by omega
  simp only [playRound]
  by_cases hn : (is_blackjack [p1, p2] || is_blackjack [d1, d2]) = true
  · rw [if_pos hn]
    constructor
    · split
      · simp
      · split <;> simp
    · intro h
      split at h <;>
        first
        | (simp only [RoundResult.finished.injEq] at h
           obtain ⟨_, _, _, _, hr⟩ := h
           subst hr
           omega)
        | (split at h <;>
            simp only [RoundResult.finished.injEq] at h <;>
            obtain ⟨_, _, _, _, hr⟩ := h <;> subst hr <;> omega)
  · rw [if_neg hn]
    have h1 := two_card_value_le_21 p1 p2
    have h2 : 2 ≤ sum_card_values_as_ace_one [d1, d2] := by
      have hd1 := aceOneValue_pos d1
      have hd2 := aceOneValue_pos d2
      simp only [sum_card_values_as_ace_one]
      omega
    have h3 : 17 + (22 - sum_card_values_as_ace_one [p1, p2]) ≤ dk.length := by
      have hp1 := aceOneValue_pos p1
      have hp2 := aceOneValue_pos p2
      simp only [sum_card_values_as_ace_one]
      omega
    obtain ⟨hs, hf⟩ := playerTurn_safe moves chips bet false [p1, p2] [d1, d2] dk h1 h2 h3
    exact ⟨hs, fun h => hf c' dbl p d rest h⟩

/-! ### Concrete rounds: counterexamples and witnesses -/

/-- Concrete cards for the concrete evaluations below. -/
def cAce : Card := ⟨Rank.ace, 0⟩

def cTwo : Card := ⟨Rank.two, 0⟩

def cFour : Card := ⟨Rank.four, 0⟩

def cFive : Card := ⟨Rank.five, 0⟩

def cSix : Card := ⟨Rank.six, 0⟩

def cSixH : Card := ⟨Rank.six, 1⟩

def cSeven : Card := ⟨Rank.seven, 0⟩

def cEight : Card := ⟨Rank.eight, 0⟩

def cEightH : Card := ⟨Rank.eight, 1⟩

def cNine : Card := ⟨Rank.nine, 0⟩

def cTen : Card := ⟨Rank.ten, 0⟩

def cTenH : Card := ⟨Rank.ten, 1⟩

def cKing : Card := ⟨Rank.king, 0⟩

/-- C1: the chips-never-negative invariant fails.  With chips 20 and bet
10 (so `1 <= bet <= chips` and doubling is offered, since
`chips - bet >= bet`), the player holds `[T, 6]`, doubles, draws a 2 for
18, and the dealer stands on `[K, 9]` = 19 and wins: `play_round`
returns a balance of -10, strictly below zero. -/
theorem playRound_double_dealerWin_goes_negative :
    playRound 20 10 [cTen, cSix, cKing, cNine, cTwo] [Action.double] =
      RoundResult.finished (-10) true [cTen, cSix, cTwo] [cKing, cNine] [] ∧
      (-10 : Int) < 0 := by
  decide

/-- C2: a double-down bust loses only the extra bet, not `2 * bet`.
With chips 100 and bet 10 the player holds `[T, 6]`, doubles (chips drop
to 90, bet becomes 20), draws a king and busts at 26: the round ends at
90 chips — a net loss of 10, the amount deducted at double time, because
the original bet is only settled at the resolution step the bust
skips. -/
theorem playRound_doubleBust_net_loss_is_single_bet :
    playRound 100 10 [cTen, cSixH, cNine, cSeven, cKing] [Action.double] =
      RoundResult.finished 90 true [cTen, cSixH, cKing] [cNine, cSeven] [] ∧
      (100 - 90 : Int) = 10 := by
  decide

/-- C3: `hand_value` reports `[A, 6, 6]` as soft.  Its total is 13 (the
single Ace was downgraded to 1), yet the returned flag is `true`,
because line 74 of the source only tests `hasAce` and `11 <= total <=
21` and never checks whether an Ace still counts as 11 — contradicting
the spec and the function's own docstring, which require `false`
here. -/
theorem hand_value_ace_six_six :
    hand_value [cAce, cSix, cSixH] = (13, true) := by
  decide

/-- C5 (counterexample): a doubled push does change the chip balance.
With chips 100 and bet 10 the player holds `[5, 4]`, doubles, draws a 9
for 18; the dealer stands on `[T, 8]` = 18.  The totals are equal and
neither exceeds 21, yet the round ends at 90 chips, not 100: the 10
deducted at double time is never returned. -/
theorem playRound_doubled_push_changes_chips :
    playRound 100 10 [cFive, cFour, cTen, cEight, cNine] [Action.double] =
      RoundResult.finished 90 true [cFive, cFour, cNine] [cTen, cEight] [] ∧
      (hand_value [cFive, cFour, cNine]).1 = (hand_value [cTen, cEight]).1 ∧
      (hand_value [cFive, cFour, cNine]).1 ≤ 21 ∧
      (90 : Int) ≠ 100 := by
  decide

/-- C5 (witness): an undoubled push with equal totals 18 leaves the
balance at 100, as the amended claim states. -/
theorem playRound_push_preserves_chips_without_double_witness :
    playRound 100 10 [cTen, cEight, cTenH, cEightH] [Action.stand] =
      RoundResult.finished 100 false [cTen, cEight] [cTenH, cEightH] [] ∧
      (100 : Int) = 100 :=
  ⟨by decide,
    playRound_push_preserves_chips_without_double 100 10
      [cTen, cEight, cTenH, cEightH] [Action.stand] 100
      [cTen, cEight] [cTenH, cEightH] [] (by decide) (by decide) (by decide)⟩

/-- C4 (witness): chips 100, bet 10, player doubles `[T, 6]` into 18 and
the dealer wins with 19: the round ends at 70 = 100 - 3 * 10. -/
theorem playRound_double_resolution_deltas_witness :
    compare_outcome [cTen, cSix, cTwo] [cKing, cNine] = Outcome.dealer_win ∧
      (70 : Int) = 100 - 3 * 10 :=
  ⟨by decide,
    (playRound_double_resolution_deltas 100 10 [cTen, cSix, cKing, cNine, cTwo]
      [Action.double] 70 [cTen, cSix, cTwo] [cKing, cNine] [] (by decide)).1 (by decide)⟩

/-- C6 (counterexample): on `[A, 6, 6]` the ad hoc detection is false
(the Ace counts as 1, so the total equals the all-Aces-as-one sum) while
`hand_value`'s returned flag is true — the two softness tests are not
equivalent. -/
theorem adHocSoft_ne_hand_value_soft_on_ace_six_six :
    adHocSoft [cAce, cSix, cSixH] = false ∧
      (hand_value [cAce, cSix, cSixH]).2 = true := by
  decide

/-- C6 (witness): on the genuinely soft hand `[A, 6]` the ad hoc
detection holds and so does `hand_value`'s flag. -/
theorem adHocSoft_implies_hand_value_soft_witness :
    adHocSoft [cAce, cSix] = true ∧ (hand_value [cAce, cSix]).2 = true :=
  ⟨by decide, adHocSoft_implies_hand_value_soft [cAce, cSix] (by decide)⟩

/-- C7 (witness): the dealer stands on the soft seventeen `[A, 6]`,
returning the hand — worth at least 17 — and the shoe unchanged. -/
theorem dealer_play_policy_witness :
    17 ≤ (hand_value [cAce, cSix]).1 ∧
      ([cAce, cSix] = [cAce, cSix] ∧ [cKing] = [cKing]) :=
  ⟨(dealer_play_policy [cKing] [cAce, cSix] [cAce, cSix] [cKing] (by decide)).1,
    (dealer_play_policy [cKing] [cAce, cSix] [cAce, cSix] [cKing] (by decide)).2.2
      (by decide)⟩

/-- C9 (witness): a round played from the unshuffled fresh deck does
not exhaust the shoe. -/
theorem playRound_deals_fewer_than_52_witness :
    standardDeck.Perm standardDeck ∧
      playRound 100 10 standardDeck [Action.stand] ≠ RoundResult.shoeEmpty :=
  ⟨List.Perm.refl standardDeck,
    (playRound_deals_fewer_than_52 100 10 standardDeck [Action.stand] 0 false [] [] []
      (List.Perm.refl standardDeck)).1⟩

/-- C10 (counterexample): a dealer iteration that draws need not
increase the evaluated total.  On `[A, 5]` (a soft 16, below 17) the
policy draws; drawing a king leaves the total at 16 — the Ace is
downgraded — so the claimed strictly-increasing measure is wrong, even
though `dealer_play` still terminates (here after one more card). -/
theorem dealer_play_draw_total_not_increasing :
    dealer_play [cKing, cSixH] [cAce, cFive] =
      some ([cAce, cFive, cKing, cSixH], []) ∧
      (hand_value [cAce, cFive]).1 < 17 ∧
      ¬ (hand_value [cAce, cFive]).1 < (hand_value [cAce, cFive, cKing]).1 := by
  decide

/-- C10 (witness): from an empty dealer hand, any shoe with 17 cards is
enough for the policy to finish, and appending a two strictly grows the
all-Aces-as-one sum. -/
theorem dealer_play_terminates_witness :
    17 ≤ sum_card_values_as_ace_one [] + (List.replicate 17 cTwo).length ∧
      (sum_card_values_as_ace_one [] <
          sum_card_values_as_ace_one ([] ++ [cTwo]) ∧
        (dealer_play (List.replicate 17 cTwo) []).isSome = true) :=
  ⟨by decide, dealer_play_terminates (List.replicate 17 cTwo) [] cTwo (by decide)⟩

end Blackjack
